import Mathlib

/-!
Verification of the Vargen expansion engine (`src/text_variations.py`).

The engine is embedded shallowly over `List Char`:
* `find_matching_bracket` mirrors the nested helper of the same name
  (depth counting starting just after the opening bracket);
* `split_options` mirrors the helper splitting a group body at top-level
  pipes (depth is a Python `int`, so it may go negative on stray `]`);
* `generate_variations_recursive` mirrors the recursive expansion; the
  recursion is driven by a fuel argument equal to the string length,
  which is proved sufficient (`genRecF_eq_of_le`);
* `generate_text_variations` applies the final whitespace normalization
  `re.sub(' +', ' ', v).strip()` to every produced variation.
-/

namespace Vargen

/-- Python `str.strip()` default whitespace characters (ASCII range). -/
def isPySpace (c : Char) : Bool :=
  c = ' ' || c = '\t' || c = '\n' || c = '\r' || c = '\x0b' || c = '\x0c'

/-- Index of the first `'['`, mirroring `re.search(r'\[', text)`. -/
def firstOpenIdx : List Char → Option Nat
  | [] => none
  | c :: rest => if c = '[' then some 0 else (firstOpenIdx rest).map (· + 1)

/-- Depth-counting scan of the helper `find_matching_bracket`: given the
characters after the opening bracket and the current depth, return the
offset of the closing bracket that brings the depth to zero. -/
def findMatchAux : List Char → Nat → Option Nat
  | [], _ => none
  | c :: rest, depth =>
    if c = '[' then (findMatchAux rest (depth + 1)).map (· + 1)
    else if c = ']' then
      if depth = 1 then some 0 else (findMatchAux rest (depth - 1)).map (· + 1)
    else (findMatchAux rest depth).map (· + 1)

/-- `find_matching_bracket(text, start_index)` from the source: the index of
the matching closing bracket, or `none` in place of Python's `-1`. -/
def find_matching_bracket (s : List Char) (start : Nat) : Option Nat :=
  (findMatchAux (s.drop (start + 1)) 1).map (· + (start + 1))

/-- Loop of `split_options`: `cur` is the reversed current segment, `depth`
is the running bracket depth (a Python `int`, hence `Int` here). -/
def splitGo : List Char → Int → List Char → List (List Char)
  | [], _, cur => [cur.reverse]
  | c :: rest, depth, cur =>
    if c = '[' then splitGo rest (depth + 1) (c :: cur)
    else if c = ']' then splitGo rest (depth - 1) (c :: cur)
    else if c = '|' ∧ depth = 0 then cur.reverse :: splitGo rest depth []
    else splitGo rest depth (c :: cur)

/-- `split_options(option_text)` from the source. -/
def split_options (s : List Char) : List (List Char) := splitGo s 0 []

/-- Fueled form of `generate_variations_recursive`; the fuel only serves to
make the recursion structural and is proved irrelevant once it is at least
the length of the input. -/
def genRecF : Nat → List Char → List (List Char)
  | 0, s => [s]
  | fuel + 1, s =>
    match firstOpenIdx s with
    | none => [s]
    | some i =>
      match find_matching_bracket s i with
      | none => [s]
      | some j =>
        let pre := s.take i
        let suffix := s.drop (j + 1)
        let options := split_options ((s.drop (i + 1)).take (j - i - 1))
        options.flatMap (fun o =>
          (genRecF fuel o).flatMap (fun v =>
            (genRecF fuel suffix).map (fun sv => pre ++ v ++ sv)))

/-- `generate_variations_recursive(current_text)` from the source. -/
def generate_variations_recursive (s : List Char) : List (List Char) :=
  genRecF s.length s

/-- Loop of the space-collapsing pass `re.sub(' +', ' ', v)`: the flag
records whether the previous character was a space. -/
def collapseGo : List Char → Bool → List Char
  | [], _ => []
  | c :: rest, prevSpace =>
    if c = ' ' then
      if prevSpace then collapseGo rest true else ' ' :: collapseGo rest true
    else c :: collapseGo rest false

/-- `re.sub(' +', ' ', v)`: each maximal run of spaces becomes one space. -/
def collapseSpaces (l : List Char) : List Char := collapseGo l false

/-- Python `str.strip()`: drop leading and trailing whitespace. -/
def pyStrip (l : List Char) : List Char :=
  ((l.dropWhile isPySpace).reverse.dropWhile isPySpace).reverse

/-- The whole normalization `re.sub(' +', ' ', v).strip()`. -/
def normalizeChars (l : List Char) : List Char := pyStrip (collapseSpaces l)

/-- String-level normalization of one variation. -/
def normalizeStr (s : String) : String := String.mk (normalizeChars s.data)

/-- `generate_text_variations(text)` from the source: expand recursively,
then normalize every variation of the final list. -/
def generate_text_variations (text : String) : List String :=
  (generate_variations_recursive text.data).map (fun v => String.mk (normalizeChars v))

/-- `true` iff the list contains two consecutive spaces. -/
def hasDoubleSpace : List Char → Bool
  | c1 :: c2 :: rest => (c1 = ' ' && c2 = ' ') || hasDoubleSpace (c2 :: rest)
  | _ => false

/-- `needle` occurs at the start of `hay`. -/
def begWith : List Char → List Char → Bool
  | [], _ => true
  | _ :: _, [] => false
  | a :: as, b :: bs => a = b && begWith as bs

/-- `needle` occurs contiguously somewhere inside `hay`. -/
def occursIn : List Char → List Char → Bool
  | needle, [] => needle.isEmpty
  | needle, c :: rest => begWith needle (c :: rest) || occursIn needle rest

/-- Position `q` holds a `'['` with no matching `']'` by depth counting. -/
def unmatchedOpenAt (s : List Char) (q : Nat) : Bool :=
  (s[q]? == some '[') && (find_matching_bracket s q).isNone

/-- Scan for the first unmatched `'['` at or after position `p`
(`k` is the remaining number of positions to inspect). -/
def fuGo (s : List Char) : Nat → Nat → Option Nat
  | _, 0 => none
  | p, k + 1 => if unmatchedOpenAt s p then some p else fuGo s (p + 1) k

/-- Index of the first `'['` of `s` that has no matching `']'`. -/
def firstUnmatchedOpen (s : List Char) : Option Nat := fuGo s 0 s.length

/-! ### Basic facts about the scanning helpers -/

theorem firstOpenIdx_some {s : List Char} {i : Nat} (h : firstOpenIdx s = some i) :
    i < s.length ∧ s[i]? = some '[' ∧ ∀ r, r < i → s[r]? ≠ some '[' := by
  induction s generalizing i with
  | nil => simp [firstOpenIdx] at h
  | cons c rest ih =>
    by_cases hc : c = '['
    · simp [firstOpenIdx, hc] at h
      subst h
      simp [hc]
    · simp [firstOpenIdx, hc] at h
      obtain ⟨i', hi', rfl⟩ := h
      obtain ⟨h1, h2, h3⟩ := ih hi'
      refine ⟨by simpa using h1, by simpa using h2, ?_⟩
      intro r hr
      cases r with
      | zero => simpa using hc
      | succ r' => simpa using h3 r' (by omega)

theorem firstOpenIdx_none {s : List Char} (h : firstOpenIdx s = none) :
    ∀ c ∈ s, c ≠ '[' := by
  induction s with
  | nil => simp
  | cons c rest ih =>
    by_cases hc : c = '['
    · simp [firstOpenIdx, hc] at h
    · simp [firstOpenIdx, hc] at h
      simpa [hc] using fun d hd => ih h d hd

theorem firstOpenIdx_eq_none {s : List Char} (h : ∀ c ∈ s, c ≠ '[') :
    firstOpenIdx s = none := by
  induction s with
  | nil => rfl
  | cons c rest ih =>
    have hc : c ≠ '[' := h c (by simp)
    simp [firstOpenIdx, hc]
    exact ih fun d hd => h d (by simp [hd])

theorem firstOpenIdx_take {s : List Char} {i : Nat} (h : firstOpenIdx s = some i)
    {m : Nat} (hm : i < m) : firstOpenIdx (s.take m) = some i := by
  induction s generalizing i m with
  | nil => simp [firstOpenIdx] at h
  | cons c rest ih =>
    by_cases hc : c = '['
    · simp [firstOpenIdx, hc] at h
      subst h
      obtain ⟨m', rfl⟩ : ∃ m', m = m' + 1 := ⟨m - 1, by omega⟩
      simp [firstOpenIdx, hc]
    · simp [firstOpenIdx, hc] at h
      obtain ⟨i', hi', rfl⟩ := h
      obtain ⟨m', rfl⟩ : ∃ m', m = m' + 1 := ⟨m - 1, by omega⟩
      have h4 := ih hi' (show i' < m' by omega)
      simp [firstOpenIdx, hc, h4]

theorem findMatchAux_some {l : List Char} {d r : Nat} (h : findMatchAux l d = some r) :
    r < l.length ∧ l[r]? = some ']' := by
  induction l generalizing d r with
  | nil => simp [findMatchAux] at h
  | cons c rest ih =>
    by_cases hc : c = '['
    · simp [findMatchAux, hc] at h
      obtain ⟨r', hr', rfl⟩ := h
      obtain ⟨h1, h2⟩ := ih hr'
      exact ⟨by simpa using h1, by simpa using h2⟩
    · by_cases hc2 : c = ']'
      · by_cases hd : d = 1
        · simp [findMatchAux, hc, hc2, hd] at h
          subst h
          simp [hc2]
        · simp [findMatchAux, hc, hc2, hd] at h
          obtain ⟨r', hr', rfl⟩ := h
          obtain ⟨h1, h2⟩ := ih hr'
          exact ⟨by simpa using h1, by simpa using h2⟩
      · simp [findMatchAux, hc, hc2] at h
        obtain ⟨r', hr', rfl⟩ := h
        obtain ⟨h1, h2⟩ := ih hr'
        exact ⟨by simpa using h1, by simpa using h2⟩

theorem findMatchAux_take {l : List Char} {d r : Nat} (h : findMatchAux l d = some r)
    {m : Nat} (hm : r < m) : findMatchAux (l.take m) d = some r := by
  induction l generalizing d r m with
  | nil => simp [findMatchAux] at h
  | cons c rest ih =>
    obtain ⟨m', rfl⟩ : ∃ m', m = m' + 1 := ⟨m - 1, by omega⟩
    by_cases hc : c = '['
    · simp [findMatchAux, hc] at h ⊢
      obtain ⟨r', hr', rfl⟩ := h
      exact ⟨r', ih hr' (by omega), rfl⟩
    · by_cases hc2 : c = ']'
      · by_cases hd : d = 1
        · simp [findMatchAux, hc, hc2, hd] at h ⊢
          omega
        · simp [findMatchAux, hc, hc2, hd] at h ⊢
          obtain ⟨r', hr', rfl⟩ := h
          exact ⟨r', ih hr' (by omega), rfl⟩
      · simp [findMatchAux, hc, hc2] at h ⊢
        obtain ⟨r', hr', rfl⟩ := h
        exact ⟨r', ih hr' (by omega), rfl⟩

theorem find_matching_bracket_some {s : List Char} {i j : Nat}
    (h : find_matching_bracket s i = some j) :
    i + 1 ≤ j ∧ j < s.length ∧ s[j]? = some ']' := by
  simp [find_matching_bracket] at h
  obtain ⟨r, hr, rfl⟩ := h
  obtain ⟨h1, h2⟩ := findMatchAux_some hr
  rw [List.length_drop] at h1
  rw [List.getElem?_drop] at h2
  exact ⟨by omega, by omega, by rw [show i + 1 + r = r + (i + 1) by omega] at h2; exact h2⟩

theorem splitGo_mem_length {l : List Char} {d : Int} {cur o : List Char}
    (h : o ∈ splitGo l d cur) : o.length ≤ cur.length + l.length := by
  induction l generalizing d cur with
  | nil =>
    simp [splitGo] at h
    simp [h]
  | cons c rest ih =>
    by_cases hc : c = '['
    · have := ih (by simpa [splitGo, hc] using h)
      simp at this ⊢
      omega
    · by_cases hc2 : c = ']'
      · have := ih (by simpa [splitGo, hc, hc2] using h)
        simp at this ⊢
        omega
      · by_cases hc3 : c = '|' ∧ d = 0
        · simp [splitGo, hc, hc2, hc3] at h
          rcases h with rfl | h
          · simp
          · have := ih h
            simp at this ⊢
            omega
        · have := ih (by simpa [splitGo, hc, hc2, hc3] using h)
          simp at this ⊢
          omega

theorem split_options_mem_length {b o : List Char} (h : o ∈ split_options b) :
    o.length ≤ b.length := by
  simpa using splitGo_mem_length h

theorem splitGo_ne_nil {l : List Char} {d : Int} {cur : List Char} :
    splitGo l d cur ≠ [] := by
  induction l generalizing d cur with
  | nil => simp [splitGo]
  | cons c rest ih =>
    by_cases hc : c = '['
    · simpa [splitGo, hc] using ih
    · by_cases hc2 : c = ']'
      · simpa [splitGo, hc, hc2] using ih
      · by_cases hc3 : c = '|' ∧ d = 0
        · simp [splitGo, hc, hc2, hc3]
        · simpa [splitGo, hc, hc2, hc3] using ih

theorem split_options_ne_nil {b : List Char} : split_options b ≠ [] := splitGo_ne_nil

/-! ### The fuel is irrelevant once it covers the input length -/

theorem flatMap_congr_mem {α β : Type} {l : List α} {f g : α → List β}
    (h : ∀ a ∈ l, f a = g a) : l.flatMap f = l.flatMap g := by
  induction l with
  | nil => rfl
  | cons a l ih =>
    simp only [List.flatMap_cons]
    rw [h a (by simp), ih fun b hb => h b (by simp [hb])]

theorem genRecF_of_none {s : List Char} (hi : firstOpenIdx s = none) (f : Nat) :
    genRecF f s = [s] := by
  cases f with
  | zero => rfl
  | succ f => simp [genRecF, hi]

theorem genRecF_of_nomatch {s : List Char} {i : Nat} (hi : firstOpenIdx s = some i)
    (hj : find_matching_bracket s i = none) (f : Nat) : genRecF f s = [s] := by
  cases f with
  | zero => rfl
  | succ f => simp [genRecF, hi, hj]

theorem genRecF_succ_split {s : List Char} {i j : Nat} (hi : firstOpenIdx s = some i)
    (hj : find_matching_bracket s i = some j) (f : Nat) :
    genRecF (f + 1) s =
      (split_options ((s.drop (i + 1)).take (j - i - 1))).flatMap (fun o =>
        (genRecF f o).flatMap (fun v =>
          (genRecF f (s.drop (j + 1))).map (fun sv => s.take i ++ v ++ sv))) := by
  simp [genRecF, hi, hj]

theorem genRecF_len_irrel : ∀ f : Nat, ∀ s : List Char, s.length ≤ f →
    genRecF f s = genRecF s.length s := by
  intro f
  induction f using Nat.strong_induction_on with
  | _ f ihf =>
    intro s hs
    rcases Nat.lt_or_ge s.length f with hlt | hge
    · obtain ⟨f', rfl⟩ : ∃ f', f = f' + 1 := ⟨f - 1, by omega⟩
      match hi : firstOpenIdx s with
      | none => rw [genRecF_of_none hi, genRecF_of_none hi]
      | some i =>
        match hj : find_matching_bracket s i with
        | none => rw [genRecF_of_nomatch hi hj, genRecF_of_nomatch hi hj]
        | some j =>
          obtain ⟨hij, hjlen, _⟩ := find_matching_bracket_some hj
          obtain ⟨m, hm⟩ : ∃ m, s.length = m + 1 :=
            ⟨s.length - 1, by omega⟩
          rw [genRecF_succ_split hi hj, hm, genRecF_succ_split hi hj]
          have hsuf : genRecF f' (s.drop (j + 1)) = genRecF m (s.drop (j + 1)) := by
            rw [ihf f' (by omega) _ (by simp; omega), ihf m (by omega) _ (by simp; omega)]
          refine flatMap_congr_mem fun o ho => ?_
          have hob : o.length ≤ ((s.drop (i + 1)).take (j - i - 1)).length :=
            split_options_mem_length ho
          have hol : o.length ≤ m - 1 := by
            simp at hob
            omega
          rw [ihf f' (by omega) o (by omega), ihf m (by omega) o (by omega), hsuf]
    · have hsf : s.length = f := by omega
      rw [hsf]

/-- Unfolding: no `'['` in the text. -/
theorem gvr_of_none {s : List Char} (hi : firstOpenIdx s = none) :
    generate_variations_recursive s = [s] :=
  genRecF_of_none hi s.length

/-- Unfolding: the first `'['` has no matching `']'`. -/
theorem gvr_of_nomatch {s : List Char} {i : Nat} (hi : firstOpenIdx s = some i)
    (hj : find_matching_bracket s i = none) :
    generate_variations_recursive s = [s] :=
  genRecF_of_nomatch hi hj s.length

/-- Unfolding: the first `'['` matches at `j`; the recursion splits the text
and takes the ordered cross product. -/
theorem gvr_split {s : List Char} {i j : Nat} (hi : firstOpenIdx s = some i)
    (hj : find_matching_bracket s i = some j) :
    generate_variations_recursive s =
      (split_options ((s.drop (i + 1)).take (j - i - 1))).flatMap (fun o =>
        (generate_variations_recursive o).flatMap (fun v =>
          (generate_variations_recursive (s.drop (j + 1))).map
            (fun sv => s.take i ++ v ++ sv))) := by
  obtain ⟨hij, hjlen, _⟩ := find_matching_bracket_some hj
  obtain ⟨m, hm⟩ : ∃ m, s.length = m + 1 := ⟨s.length - 1, by omega⟩
  unfold generate_variations_recursive
  rw [hm, genRecF_succ_split hi hj]
  have hsuf : genRecF m (s.drop (j + 1)) = genRecF (s.drop (j + 1)).length (s.drop (j + 1)) :=
    genRecF_len_irrel m _ (by simp; omega)
  refine flatMap_congr_mem fun o ho => ?_
  have hob : o.length ≤ ((s.drop (i + 1)).take (j - i - 1)).length :=
    split_options_mem_length ho
  have hol : o.length ≤ m := by
    simp at hob
    omega
  rw [genRecF_len_irrel m o hol, hsuf]

/-! ### Properties of the whitespace normalization -/

theorem hasDoubleSpace_cons_cons (c d : Char) (r : List Char) :
    hasDoubleSpace (c :: d :: r) = ((c = ' ' && d = ' ') || hasDoubleSpace (d :: r)) := rfl

theorem hasDoubleSpace_cons_false {c : Char} {l : List Char}
    (h : hasDoubleSpace (c :: l) = false) : hasDoubleSpace l = false := by
  cases l with
  | nil => rfl
  | cons d r =>
    rw [hasDoubleSpace_cons_cons, Bool.or_eq_false_iff] at h
    exact h.2

theorem hasDoubleSpace_append_left {l l' : List Char}
    (h : hasDoubleSpace (l ++ l') = false) : hasDoubleSpace l = false := by
  induction l with
  | nil => rfl
  | cons c t ih =>
    cases t with
    | nil => rfl
    | cons d r =>
      rw [List.cons_append, List.cons_append, hasDoubleSpace_cons_cons,
        Bool.or_eq_false_iff] at h
      rw [hasDoubleSpace_cons_cons, Bool.or_eq_false_iff]
      refine ⟨h.1, ih ?_⟩
      rw [List.cons_append]
      exact h.2

theorem hasDoubleSpace_dropWhile {p : Char → Bool} {l : List Char}
    (h : hasDoubleSpace l = false) : hasDoubleSpace (l.dropWhile p) = false := by
  induction l with
  | nil => rfl
  | cons c t ih =>
    rw [List.dropWhile_cons]
    by_cases hp : p c
    · simp only [hp, if_true]
      exact ih (hasDoubleSpace_cons_false h)
    · simp only [hp, if_false]
      exact h

theorem dropWhile_head_false {α : Type} {p : α → Bool} :
    ∀ {l : List α} {c : α} {t : List α}, l.dropWhile p = c :: t → p c = false := by
  intro l
  induction l with
  | nil => intro c t h; simp at h
  | cons a r ih =>
    intro c t h
    rw [List.dropWhile_cons] at h
    by_cases hp : p a
    · simp only [hp, if_true] at h
      exact ih h
    · simp only [hp, if_false] at h
      cases h
      simpa using hp

theorem dropWhile_dropWhile {α : Type} (p : α → Bool) (l : List α) :
    (l.dropWhile p).dropWhile p = l.dropWhile p := by
  cases h : l.dropWhile p with
  | nil => rfl
  | cons c t =>
    have hc := dropWhile_head_false h
    rw [List.dropWhile_cons]
    simp [hc]

theorem collapseGo_true_head : ∀ {l : List Char} {c : Char} {t : List Char},
    collapseGo l true = c :: t → c ≠ ' ' := by
  intro l
  induction l with
  | nil => intro c t h; simp [collapseGo] at h
  | cons a r ih =>
    intro c t h
    by_cases ha : a = ' '
    · rw [show collapseGo (a :: r) true = collapseGo r true by simp [collapseGo, ha]] at h
      exact ih h
    · rw [show collapseGo (a :: r) true = a :: collapseGo r false by
        simp [collapseGo, ha]] at h
      cases h
      exact ha

theorem hasDoubleSpace_collapseGo : ∀ (l : List Char) (b : Bool),
    hasDoubleSpace (collapseGo l b) = false := by
  intro l
  induction l with
  | nil => intro b; rfl
  | cons c r ih =>
    intro b
    by_cases hc : c = ' '
    · cases b with
      | true =>
        rw [show collapseGo (c :: r) true = collapseGo r true by simp [collapseGo, hc]]
        exact ih true
      | false =>
        rw [show collapseGo (c :: r) false = ' ' :: collapseGo r true by
          simp [collapseGo, hc]]
        cases hx : collapseGo r true with
        | nil => rfl
        | cons c' t =>
          have hc' := collapseGo_true_head hx
          rw [hasDoubleSpace_cons_cons, Bool.or_eq_false_iff]
          refine ⟨by simp [hc'], ?_⟩
          rw [← hx]
          exact ih true
    · rw [show collapseGo (c :: r) b = c :: collapseGo r false by simp [collapseGo, hc]]
      cases hx : collapseGo r false with
      | nil => rfl
      | cons c' t =>
        rw [hasDoubleSpace_cons_cons, Bool.or_eq_false_iff]
        refine ⟨by simp [hc], ?_⟩
        rw [← hx]
        exact ih false

theorem hasDoubleSpace_collapseSpaces (l : List Char) :
    hasDoubleSpace (collapseSpaces l) = false :=
  hasDoubleSpace_collapseGo l false

theorem collapseGo_eq_self : ∀ (l : List Char), hasDoubleSpace l = false →
    collapseGo l false = l ∧ (l.head? ≠ some ' ' → collapseGo l true = l) := by
  intro l
  induction l with
  | nil => exact fun _ => ⟨rfl, fun _ => rfl⟩
  | cons c r ih =>
    intro h
    have hr := hasDoubleSpace_cons_false h
    by_cases hc : c = ' '
    · have hrh : r.head? ≠ some ' ' := by
        cases r with
        | nil => simp
        | cons d t =>
          rw [hc, hasDoubleSpace_cons_cons, Bool.or_eq_false_iff] at h
          have := h.1
          simp at this ⊢
          exact this
      constructor
      · rw [show collapseGo (c :: r) false = ' ' :: collapseGo r true by
          simp [collapseGo, hc]]
        rw [(ih hr).2 hrh, hc]
      · intro hh
        exact absurd (by simp [hc]) hh
    · constructor
      · rw [show collapseGo (c :: r) false = c :: collapseGo r false by
          simp [collapseGo, hc]]
        rw [(ih hr).1]
      · intro _
        rw [show collapseGo (c :: r) true = c :: collapseGo r false by
          simp [collapseGo, hc]]
        rw [(ih hr).1]

theorem collapseSpaces_eq_self {l : List Char} (h : hasDoubleSpace l = false) :
    collapseSpaces l = l :=
  (collapseGo_eq_self l h).1

theorem pyStrip_decomp (l : List Char) :
    ∃ w, l.dropWhile isPySpace = pyStrip l ++ w ∧
      pyStrip l = ((l.dropWhile isPySpace).reverse.dropWhile isPySpace).reverse := by
  refine ⟨((l.dropWhile isPySpace).reverse.takeWhile isPySpace).reverse, ?_, rfl⟩
  conv =>
    lhs
    rw [← List.reverse_reverse (l.dropWhile isPySpace),
      ← List.takeWhile_append_dropWhile isPySpace (l.dropWhile isPySpace).reverse]
  rw [List.reverse_append]
  rfl

theorem hasDoubleSpace_pyStrip {l : List Char} (h : hasDoubleSpace l = false) :
    hasDoubleSpace (pyStrip l) = false := by
  obtain ⟨w, hw, _⟩ := pyStrip_decomp l
  have h1 : hasDoubleSpace (l.dropWhile isPySpace) = false := hasDoubleSpace_dropWhile h
  rw [hw] at h1
  exact hasDoubleSpace_append_left h1

theorem pyStrip_dropWhile (l : List Char) :
    (pyStrip l).dropWhile isPySpace = pyStrip l := by
  obtain ⟨w, hw, _⟩ := pyStrip_decomp l
  cases hv : pyStrip l with
  | nil => rfl
  | cons c t =>
    have hm : (l.dropWhile isPySpace).dropWhile isPySpace = c :: (t ++ w) := by
      rw [dropWhile_dropWhile, hw, hv, List.cons_append]
    have hc := dropWhile_head_false hm
    rw [List.dropWhile_cons]
    simp [hc]

theorem pyStrip_reverse_dropWhile (l : List Char) :
    (pyStrip l).reverse.dropWhile isPySpace = (pyStrip l).reverse := by
  obtain ⟨w, hw, heq⟩ := pyStrip_decomp l
  rw [heq, List.reverse_reverse]
  exact dropWhile_dropWhile _ _

theorem pyStrip_pyStrip_of_fixed {v : List Char}
    (h1 : v.dropWhile isPySpace = v)
    (h2 : v.reverse.dropWhile isPySpace = v.reverse) :
    pyStrip v = v := by
  unfold pyStrip
  rw [h1, h2, List.reverse_reverse]

theorem normalizeChars_fixed (l : List Char) :
    normalizeChars (normalizeChars l) = normalizeChars l := by
  have hd1 : hasDoubleSpace (normalizeChars l) = false :=
    hasDoubleSpace_pyStrip (hasDoubleSpace_collapseSpaces l)
  show pyStrip (collapseSpaces (normalizeChars l)) = normalizeChars l
  rw [collapseSpaces_eq_self hd1]
  exact pyStrip_pyStrip_of_fixed (pyStrip_dropWhile _) (pyStrip_reverse_dropWhile _)

/-! ### Depth-counting theory: opening brackets strictly inside a matched
group are themselves matched, and matching only depends on the tail. -/

theorem findMatchAux_isSome_mono : ∀ {l : List Char} {d : Nat},
    (findMatchAux l d).isSome → ∀ {e : Nat}, 1 ≤ e → e ≤ d →
    (findMatchAux l e).isSome := by
  intro l
  induction l with
  | nil => intro d h; simp [findMatchAux] at h
  | cons c rest ih =>
    intro d h e he1 hed
    by_cases hc : c = '['
    · subst hc
      simp only [findMatchAux, if_true, eq_self_iff_true, Option.isSome_map'] at h ⊢
      exact ih h (by omega) (by omega)
    · by_cases hc2 : c = ']'
      · subst hc2
        by_cases he : e = 1
        · simp [findMatchAux, he]
        · have hd : ¬d = 1 := by omega
          simp [findMatchAux, hd, he] at h ⊢
          exact ih h (by omega) (by omega)
      · simp [findMatchAux, hc, hc2] at h ⊢
        exact ih h he1 hed

theorem findMatchAux_inner : ∀ {l : List Char} {d r : Nat},
    findMatchAux l d = some r → ∀ {q : Nat}, q < r → l[q]? = some '[' →
    (findMatchAux (l.drop (q + 1)) 1).isSome := by
  intro l
  induction l with
  | nil => intro d r h; simp [findMatchAux] at h
  | cons c rest ih =>
    intro d r h q hq hopen
    cases q with
    | zero =>
      have hc : c = '[' := by simpa using hopen
      subst hc
      simp [findMatchAux] at h
      obtain ⟨r', hr', rfl⟩ := h
      have hsome : (findMatchAux rest (d + 1)).isSome := by simp [hr']
      simpa using findMatchAux_isSome_mono hsome (le_refl 1) (by omega)
    | succ q' =>
      have hdrop : (c :: rest).drop (q' + 1 + 1) = rest.drop (q' + 1) := by simp
      have hopen' : rest[q']? = some '[' := by simpa using hopen
      rw [hdrop]
      by_cases hc : c = '['
      · subst hc
        simp [findMatchAux] at h
        obtain ⟨r', hr', rfl⟩ := h
        exact ih hr' (by omega) hopen'
      · by_cases hc2 : c = ']'
        · subst hc2
          by_cases hd : d = 1
          · subst hd
            simp [findMatchAux] at h
            omega
          · simp [findMatchAux, hd] at h
            obtain ⟨r', hr', rfl⟩ := h
            exact ih hr' (by omega) hopen'
        · simp [findMatchAux, hc, hc2] at h
          obtain ⟨r', hr', rfl⟩ := h
          exact ih hr' (by omega) hopen'

/-- An opening bracket strictly between a matched `'['` and its closer is
itself matched. -/
theorem fmb_inner_matched {s : List Char} {i j : Nat}
    (hj : find_matching_bracket s i = some j) {q : Nat} (hiq : i < q) (hqj : q < j)
    (hq : s[q]? = some '[') : (find_matching_bracket s q).isSome := by
  simp only [find_matching_bracket, Option.map_eq_some'] at hj
  obtain ⟨r, hr, rfl⟩ := hj
  have hql : (s.drop (i + 1))[q - (i + 1)]? = some '[' := by
    rw [List.getElem?_drop, show i + 1 + (q - (i + 1)) = q by omega]
    exact hq
  have hlt : q - (i + 1) < r := by omega
  have := findMatchAux_inner hr hlt hql
  rw [List.drop_drop, show i + 1 + (q - (i + 1) + 1) = q + 1 by omega] at this
  simpa [find_matching_bracket] using this

theorem unmatchedOpenAt_iff {s : List Char} {q : Nat} :
    unmatchedOpenAt s q = true ↔ s[q]? = some '[' ∧ find_matching_bracket s q = none := by
  simp [unmatchedOpenAt, Option.isNone_iff_eq_none]

theorem unmatchedOpenAt_drop (s : List Char) (j q : Nat) :
    unmatchedOpenAt (s.drop (j + 1)) q = unmatchedOpenAt s (j + 1 + q) := by
  unfold unmatchedOpenAt find_matching_bracket
  rw [List.getElem?_drop, List.drop_drop, show j + 1 + (q + 1) = j + 1 + q + 1 by omega,
    Option.isNone_map', Option.isNone_map']

theorem fuGo_some {s : List Char} : ∀ {k p q : Nat}, fuGo s p k = some q →
    p ≤ q ∧ q < p + k ∧ unmatchedOpenAt s q = true ∧
      ∀ r, p ≤ r → r < q → unmatchedOpenAt s r = false := by
  intro k
  induction k with
  | zero => intro p q h; simp [fuGo] at h
  | succ k ih =>
    intro p q h
    by_cases hp : unmatchedOpenAt s p
    · rw [show fuGo s p (k + 1) = some p by simp [fuGo, hp]] at h
      cases h
      exact ⟨le_refl p, by omega, hp, fun r h1 h2 => by omega⟩
    · rw [show fuGo s p (k + 1) = fuGo s (p + 1) k by simp [fuGo, hp]] at h
      obtain ⟨h1, h2, h3, h4⟩ := ih h
      refine ⟨by omega, by omega, h3, fun r hr1 hr2 => ?_⟩
      rcases Nat.eq_or_lt_of_le hr1 with rfl | hr
      · simpa using hp
      · exact h4 r (by omega) hr2

theorem fuGo_eq_some {s : List Char} : ∀ {k p q : Nat}, p ≤ q → q < p + k →
    unmatchedOpenAt s q = true →
    (∀ r, p ≤ r → r < q → unmatchedOpenAt s r = false) → fuGo s p k = some q := by
  intro k
  induction k with
  | zero => intro p q h1 h2; omega
  | succ k ih =>
    intro p q h1 h2 h3 h4
    rcases Nat.eq_or_lt_of_le h1 with rfl | hpq
    · simp [fuGo, h3]
    · rw [show fuGo s p (k + 1) = fuGo s (p + 1) k by simp [fuGo, h4 p (le_refl p) hpq]]
      exact ih (by omega) (by omega) h3 fun r hr1 hr2 => h4 r (by omega) hr2

theorem firstUnmatchedOpen_some {s : List Char} {p : Nat}
    (h : firstUnmatchedOpen s = some p) :
    p < s.length ∧ unmatchedOpenAt s p = true ∧
      ∀ r, r < p → unmatchedOpenAt s r = false := by
  obtain ⟨_, h2, h3, h4⟩ := fuGo_some h
  exact ⟨by omega, h3, fun r hr => h4 r (by omega) hr⟩

theorem firstUnmatchedOpen_intro {s : List Char} {p : Nat} (h1 : p < s.length)
    (h2 : unmatchedOpenAt s p = true)
    (h3 : ∀ r, r < p → unmatchedOpenAt s r = false) :
    firstUnmatchedOpen s = some p :=
  fuGo_eq_some (by omega) (by omega) h2 fun r _ hr => h3 r hr

/-! ### Unmatched-bracket leniency: the tail from the first unmatched `'['`
is carried verbatim through the recursion. -/

theorem gvr_unmatched_tail_aux : ∀ n : Nat, ∀ s : List Char, s.length ≤ n →
    ∀ p : Nat, firstUnmatchedOpen s = some p →
    generate_variations_recursive s =
      (generate_variations_recursive (s.take p)).map (· ++ s.drop p) := by
  intro n
  induction n with
  | zero =>
    intro s hs p hp
    have hnil : s = [] := List.length_eq_zero.mp (by omega)
    subst hnil
    simp [firstUnmatchedOpen, fuGo] at hp
  | succ n ihn =>
    intro s hs p hp
    obtain ⟨hplen, hpred, hmin⟩ := firstUnmatchedOpen_some hp
    obtain ⟨hpopen, hpnone⟩ := unmatchedOpenAt_iff.mp hpred
    match hi : firstOpenIdx s with
    | none =>
      exfalso
      have hmem : '[' ∈ s := List.mem_iff_getElem?.mpr ⟨p, hpopen⟩
      exact (firstOpenIdx_none hi) '[' hmem rfl
    | some i =>
      obtain ⟨hilen, hiopen, himin⟩ := firstOpenIdx_some hi
      match hj : find_matching_bracket s i with
      | none =>
        have hip : p = i := by
          rcases Nat.lt_trichotomy p i with h | h | h
          · exact absurd hpopen (himin p h)
          · exact h
          · exfalso
            have hui : unmatchedOpenAt s i = true := unmatchedOpenAt_iff.mpr ⟨hiopen, hj⟩
            rw [hmin i h] at hui
            cases hui
        subst hip
        rw [gvr_of_nomatch hi hj]
        have hnone : firstOpenIdx (s.take p) = none := by
          apply firstOpenIdx_eq_none
          intro c hc hceq
          subst hceq
          obtain ⟨k, hk, hkc⟩ := List.mem_take_iff_getElem.mp hc
          have hkp : s[k]? = some '[' := List.getElem?_eq_some_iff.mpr ⟨by omega, hkc⟩
          exact himin k (by omega) hkp
        rw [gvr_of_none hnone]
        simp
      | some j =>
        obtain ⟨hij, hjlen, hjclose⟩ := find_matching_bracket_some hj
        have hip : i < p := by
          rcases Nat.lt_trichotomy p i with h | h | h
          · exact absurd hpopen (himin p h)
          · exfalso
            rw [h] at hpnone
            rw [hpnone] at hj
            cases hj
          · exact h
        have hjp : j < p := by
          rcases Nat.lt_trichotomy p j with h | h | h
          · exfalso
            have hsome := fmb_inner_matched hj hip h hpopen
            rw [hpnone] at hsome
            simp at hsome
          · exfalso
            rw [h, hjclose] at hpopen
            simp at hpopen
          · exact h
        have hp' : firstUnmatchedOpen (s.drop (j + 1)) = some (p - (j + 1)) := by
          apply firstUnmatchedOpen_intro
          · simp
            omega
          · rw [unmatchedOpenAt_drop, show j + 1 + (p - (j + 1)) = p by omega]
            exact hpred
          · intro r hr
            rw [unmatchedOpenAt_drop]
            exact hmin _ (by omega)
        have hIH := ihn (s.drop (j + 1)) (by simp; omega) _ hp'
        have hi' : firstOpenIdx (s.take p) = some i := firstOpenIdx_take hi (by omega)
        have hj' : find_matching_bracket (s.take p) i = some j := by
          unfold find_matching_bracket at hj ⊢
          rw [List.drop_take]
          simp only [Option.map_eq_some'] at hj
          obtain ⟨r, hr, hrj⟩ := hj
          have hrp : findMatchAux ((s.drop (i + 1)).take (p - (i + 1))) 1 = some r :=
            findMatchAux_take hr (by omega)
          rw [hrp]
          simp [hrj]
        rw [gvr_split hi hj, gvr_split hi' hj']
        have hpre : (s.take p).take i = s.take i := by
          rw [List.take_take, Nat.min_eq_left (by omega)]
        have hbody : ((s.take p).drop (i + 1)).take (j - i - 1) =
            (s.drop (i + 1)).take (j - i - 1) := by
          rw [List.drop_take, List.take_take, Nat.min_eq_left (by omega)]
        have hsufT : (s.take p).drop (j + 1) = (s.drop (j + 1)).take (p - (j + 1)) :=
          List.drop_take p (j + 1) s
        have htail : (s.drop (j + 1)).drop (p - (j + 1)) = s.drop p := by
          rw [List.drop_drop, show j + 1 + (p - (j + 1)) = p by omega]
        rw [htail] at hIH
        simp only [hpre, hbody, hsufT, hIH]
        simp only [List.map_flatMap, List.map_map, Function.comp_def, List.append_assoc]

/-- Tail-carrying behavior of the expansion on input with an unmatched
`'['`: the part before the first unmatched bracket is expanded, the rest is
appended verbatim (before normalization). -/
theorem gvr_unmatched_tail {s : List Char} {p : Nat}
    (hp : firstUnmatchedOpen s = some p) :
    generate_variations_recursive s =
      (generate_variations_recursive (s.take p)).map (· ++ s.drop p) :=
  gvr_unmatched_tail_aux s.length s (le_refl _) p hp

/-! ### The expansion never returns an empty list -/

theorem genRecF_ne_nil : ∀ (f : Nat) (s : List Char), genRecF f s ≠ [] := by
  intro f
  induction f with
  | zero => intro s; simp [genRecF]
  | succ f ih =>
    intro s
    match hi : firstOpenIdx s with
    | none => simp [genRecF_of_none hi]
    | some i =>
      match hj : find_matching_bracket s i with
      | none => simp [genRecF_of_nomatch hi hj]
      | some j =>
        rw [genRecF_succ_split hi hj]
        intro hcontra
        rw [List.flatMap_eq_nil_iff] at hcontra
        obtain ⟨o, ho⟩ := List.exists_mem_of_ne_nil _ split_options_ne_nil
        have h2 := hcontra o ho
        rw [List.flatMap_eq_nil_iff] at h2
        obtain ⟨v, hv⟩ := List.exists_mem_of_ne_nil _ (ih o)
        have h3 := h2 v hv
        rw [List.map_eq_nil_iff] at h3
        exact ih _ h3

theorem gvr_ne_nil (s : List Char) : generate_variations_recursive s ≠ [] :=
  genRecF_ne_nil s.length s

/-! ### Claims -/

/-- C1 (counterexample): on the unbalanced input `"A[bc"` the engine does
not return `["Abc"]` — the unmatched bracket is kept. -/
theorem claim1_counterexample : generate_text_variations "A[bc" ≠ ["Abc"] := by decide

/-- C1 (amended): `expand("A[bc")` returns exactly the one-element sequence
`["A[bc"]`: on unbalanced input the result is the literal fallback with the
unmatched bracket kept verbatim and no failure signal. -/
theorem claim1_literal_fallback : generate_text_variations "A[bc" = ["A[bc"] := by decide

/-- C2 (counterexample): for `"[a  b"` the first unmatched `'['` is at
position 0, yet the text from it onward (the whole input) does not appear
verbatim in the output, because the final whitespace normalization collapses
the double space. -/
theorem claim2_counterexample :
    firstUnmatchedOpen "[a  b".data = some 0 ∧
    generate_text_variations "[a  b" = ["[a b"] ∧
    occursIn ("[a  b".data.drop 0) "[a b".data = false := by
  exact ⟨by decide, by decide, by decide⟩

/-- C2 (amended): for every template with a `'['` that has no matching `']'`
by depth counting, the recursion returns, for each expansion of the text
before the first such unmatched `'['`, that expansion followed by the tail
from the unmatched `'['` onward verbatim; the final output applies only the
single top-level whitespace normalization to these strings. -/
theorem claim2_unmatched_tail (s : List Char) (p : Nat)
    (hp : firstUnmatchedOpen s = some p) :
    generate_variations_recursive s =
      (generate_variations_recursive (s.take p)).map (· ++ s.drop p) ∧
    generate_text_variations (String.mk s) =
      (generate_variations_recursive (s.take p)).map
        (fun u => String.mk (normalizeChars (u ++ s.drop p))) := by
  have h := gvr_unmatched_tail hp
  refine ⟨h, ?_⟩
  unfold generate_text_variations
  rw [show (String.mk s).data = s from rfl, h, List.map_map]
  rfl

/-- Witness for C2 at `"x[a|b]y[c"`, whose first unmatched `'['` is at 7. -/
theorem claim2_witness :
    firstUnmatchedOpen "x[a|b]y[c".data = some 7 ∧
    generate_variations_recursive "x[a|b]y[c".data =
      (generate_variations_recursive ("x[a|b]y[c".data.take 7)).map
        (· ++ "x[a|b]y[c".data.drop 7) :=
  ⟨by decide, (claim2_unmatched_tail "x[a|b]y[c".data 7 (by decide)).1⟩

/-- C3: when the leftmost `'['` has a matching `']'` by depth counting, the
pre-normalization expansion is the ordered concatenation over alternatives
of prefix ++ alternative-expansion ++ suffix-expansion, and in particular
`expand("A[x|y|z]B") = ["AxB", "AyB", "AzB"]`. -/
theorem claim3_cross_product :
    (∀ (s : List Char) (i j : Nat), firstOpenIdx s = some i →
      find_matching_bracket s i = some j →
      generate_variations_recursive s =
        (split_options ((s.drop (i + 1)).take (j - i - 1))).flatMap (fun o =>
          (generate_variations_recursive o).flatMap (fun v =>
            (generate_variations_recursive (s.drop (j + 1))).map
              (fun sv => s.take i ++ v ++ sv)))) ∧
    generate_text_variations "A[x|y|z]B" = ["AxB", "AyB", "AzB"] :=
  ⟨fun _ _ _ hi hj => gvr_split hi hj, by decide⟩

/-- Witness for C3 at `"A[x|y|z]B"` with the group opening at 1, closing at 7. -/
theorem claim3_witness :
    firstOpenIdx "A[x|y|z]B".data = some 1 ∧
    find_matching_bracket "A[x|y|z]B".data 1 = some 7 ∧
    generate_variations_recursive "A[x|y|z]B".data =
      (split_options (("A[x|y|z]B".data.drop 2).take 5)).flatMap (fun o =>
        (generate_variations_recursive o).flatMap (fun v =>
          (generate_variations_recursive ("A[x|y|z]B".data.drop 8)).map
            (fun sv => "A[x|y|z]B".data.take 1 ++ v ++ sv))) :=
  ⟨by decide, by decide,
    claim3_cross_product.1 "A[x|y|z]B".data 1 7 (by decide) (by decide)⟩

/-- C4: normalization (collapse runs of spaces, strip ends) is applied once
to every string of the final flattened list and never inside the recursion;
hence no returned variation has two consecutive spaces or leading/trailing
whitespace, e.g. for the input `"A  [x| y ] B"`. -/
theorem claim4_normalization :
    (∀ t : String, generate_text_variations t =
      (generate_variations_recursive t.data).map (fun v => String.mk (normalizeChars v))) ∧
    (∀ (t v : String), v ∈ generate_text_variations t →
      hasDoubleSpace v.data = false ∧
      v.data.dropWhile isPySpace = v.data ∧
      v.data.reverse.dropWhile isPySpace = v.data.reverse) ∧
    generate_text_variations "A  [x| y ] B" = ["A x B", "A y B"] := by
  refine ⟨fun t => rfl, ?_, by decide⟩
  intro t v hv
  simp only [generate_text_variations, List.mem_map] at hv
  obtain ⟨u, hu, rfl⟩ := hv
  exact ⟨hasDoubleSpace_pyStrip (hasDoubleSpace_collapseSpaces u),
    pyStrip_dropWhile _, pyStrip_reverse_dropWhile _⟩

/-- Witness for C4: `"A x B"` is an output for `"A  [x| y ] B"` and carries
no double spaces nor boundary whitespace. -/
theorem claim4_witness :
    ("A x B" : String) ∈ generate_text_variations "A  [x| y ] B" ∧
    (hasDoubleSpace "A x B".data = false ∧
     "A x B".data.dropWhile isPySpace = "A x B".data ∧
     "A x B".data.reverse.dropWhile isPySpace = "A x B".data.reverse) :=
  ⟨by decide, claim4_normalization.2.1 "A  [x| y ] B" "A x B" (by decide)⟩

/-- C5: an empty alternative is valid and expands to the empty string:
`expand("[a|]") = ["a", ""]` in that order. -/
theorem claim5_empty_alternative : generate_text_variations "[a|]" = ["a", ""] := by
  decide

/-- C6: `expand("[[a|b],[c|d]|e]")` has exactly the (2×2)+1 = 5 results of
the nested cross product followed by the sibling alternative. -/
theorem claim6_nested_cross :
    generate_text_variations "[[a|b],[c|d]|e]" = ["a,c", "a,d", "b,c", "b,d", "e"] ∧
    (generate_text_variations "[[a|b],[c|d]|e]").length = 5 := by
  exact ⟨by decide, by decide⟩

/-- C7: a template with no `'['` expands to the singleton of its normalized
self; `']'` and `'|'` are preserved as literals. -/
theorem claim7_no_bracket (t : String) (h : ∀ c ∈ t.data, c ≠ '[') :
    generate_text_variations t = [String.mk (normalizeChars t.data)] := by
  unfold generate_text_variations
  rw [gvr_of_none (firstOpenIdx_eq_none h)]
  rfl

/-- Witness for C7 at `"a]b  |c"` (no `'['`; keeps `']'` and `'|'`). -/
theorem claim7_witness :
    (∀ c ∈ ("a]b  |c" : String).data, c ≠ '[') ∧
    generate_text_variations "a]b  |c" = [String.mk (normalizeChars "a]b  |c".data)] :=
  ⟨by decide, claim7_no_bracket "a]b  |c" (by decide)⟩

/-- C8: the engine is total — the Lean embedding is a total function, so it
is defined on every string — and the empty template expands to the
one-element sequence containing the empty string. -/
theorem claim8_empty_input : generate_text_variations "" = [""] := by decide

/-- C9: re-applying the whitespace normalization to any produced variation
is a no-op. -/
theorem claim9_normalization_idempotent (t v : String)
    (hv : v ∈ generate_text_variations t) : normalizeStr v = v := by
  simp only [generate_text_variations, List.mem_map] at hv
  obtain ⟨u, hu, rfl⟩ := hv
  show String.mk (normalizeChars (String.mk (normalizeChars u)).data) = _
  rw [show (String.mk (normalizeChars u)).data = normalizeChars u from rfl,
    normalizeChars_fixed]

/-- Witness for C9: `"a b"` is produced from `"a  b"` and normalizing it
again leaves it unchanged. -/
theorem claim9_witness :
    ("a b" : String) ∈ generate_text_variations "a  b" ∧ normalizeStr "a b" = "a b" :=
  ⟨by decide, claim9_normalization_idempotent "a  b" "a b" (by decide)⟩

/-- C10: for every input the output list has at least one element. -/
theorem claim10_output_nonempty (t : String) : generate_text_variations t ≠ [] := by
  unfold generate_text_variations
  intro h
  rw [List.map_eq_nil_iff] at h
  exact gvr_ne_nil t.data h

end Vargen
